import Mathlib

/-!
Verification of the mermaid preprocessing pipeline (`preprocess.ts`) and the
diagram resolution facade (`Diagram.ts`).

Text-level operations are embedded as scanners over `List Char`; the two
regex rewrites of `cleanupText` are translated into explicit left-to-right
non-overlapping match scanners, fuel-indexed by the input length so that every
definition is structurally recursive and kernel-reducible.
-/

namespace Mermaid

/-- Word characters of the JS regex class used by the tag rewrite of
`cleanupText` (ASCII letters, digits and underscore). -/
def isWordChar (c : Char) : Bool := c.isAlphanum || c == '_'

/-- Scanner for the first regex of `cleanupText`: the JS rewrite
`replace(/\r\n?/g, newline)` collapses a carriage return followed by an
optional line feed into a single line feed. -/
def crScan : List Char → List Char
  | [] => []
  | [c] => if c = '\r' then ['\n'] else [c]
  | c :: c2 :: rest =>
    if c = '\r' then
      if c2 = '\n' then '\n' :: crScan rest else '\n' :: crScan (c2 :: rest)
    else c :: crScan (c2 :: rest)

/-- Split a character list at the first occurrence of `x`: returns the
characters strictly before it and the characters strictly after it. -/
def splitOnChar (x : Char) : List Char → Option (List Char × List Char)
  | [] => none
  | c :: rest =>
    if c = x then some ([], rest)
    else
      match splitOnChar x rest with
      | some (a, b) => some (c :: a, b)
      | none => none

/-- Fuel-indexed scanner for the attribute rewrite inside `cleanupText`:
the JS rewrite `attributes.replace(...)` turns every double-quoted attribute
value found left to right into a single-quoted one; a double quote with no
later closing double quote matches nothing. -/
def attrScanF : Nat → List Char → List Char
  | 0, s => s
  | f + 1, s =>
    match s with
    | [] => []
    | c :: rest =>
      if c = '=' then
        match rest with
        | [] => ['=']
        | c2 :: rest2 =>
          if c2 = '"' then
            match splitOnChar '"' rest2 with
            | some (inner, rest') => '=' :: '\'' :: (inner ++ '\'' :: attrScanF f rest')
            | none => '=' :: '"' :: attrScanF f rest2
          else '=' :: attrScanF f rest
      else c :: attrScanF f rest

/-- Attribute rewrite at adequate fuel (the input length always suffices). -/
def attrRep (s : List Char) : List Char := attrScanF s.length s

/-- Maximal word-character run at the front of a list: the pair of the run
and the remainder (the JS `(\w+)` group of the tag regex). -/
def takeWord : List Char → List Char × List Char
  | [] => ([], [])
  | c :: rest =>
    if isWordChar c then
      ((c :: (takeWord rest).1), (takeWord rest).2)
    else
      ([], c :: rest)

/-- Fuel-indexed scanner for the tag regex of `cleanupText`: each
non-overlapping leftmost occurrence of an opening angle bracket, a nonempty
word run and a closing angle bracket has its attribute span rewritten by
`attrRep`; everything else passes through unchanged. -/
def tagScanF : Nat → List Char → List Char
  | 0, s => s
  | f + 1, s =>
    match s with
    | [] => []
    | c :: rest =>
      if c = '<' then
        match takeWord rest with
        | ([], _) => '<' :: tagScanF f rest
        | (t :: tg, rest2) =>
          match splitOnChar '>' rest2 with
          | none => '<' :: tagScanF f rest
          | some (attrs, rest3) =>
            '<' :: ((t :: tg) ++ (attrRep attrs ++ '>' :: tagScanF f rest3))
      else c :: tagScanF f rest

/-- Tag rewrite at adequate fuel. -/
def tagRep (s : List Char) : List Char := tagScanF s.length s

/-- Embedding of `cleanupText` (preprocess.ts lines 10-21): normalize line
endings, then rewrite double-quoted attributes inside HTML-like tags to
single-quoted ones. -/
def cleanupText (code : String) : String := String.mk (tagRep (crScan code.data))

/-- Split a character list into its lines (separator: line feed). -/
def splitLines : List Char → List (List Char)
  | [] => [[]]
  | '\n' :: rest => [] :: splitLines rest
  | c :: rest =>
    match splitLines rest with
    | l :: ls => (c :: l) :: ls
    | [] => [[c]]

/-- Rejoin lines with a line feed separator. -/
def joinLines : List (List Char) → List Char
  | [] => []
  | [l] => l
  | l :: ls => l ++ '\n' :: joinLines ls

/-- Drop leading spaces and tabs. -/
def dropIndent (s : List Char) : List Char :=
  s.dropWhile (fun c => c == ' ' || c == '\t')

/-- Trim spaces at both ends of a character list. -/
def trimSpaces (s : List Char) : List Char :=
  ((s.dropWhile (fun c => c == ' ')).reverse.dropWhile (fun c => c == ' ')).reverse

/-- Boolean test whether the first list is a prefix of the second. -/
def startsWithL : List Char → List Char → Bool
  | [], _ => true
  | _ :: _, [] => false
  | p :: ps, c :: cs => p == c && startsWithL ps cs

mutual
/-- Dynamic configuration values: the arbitrary nested string-keyed mappings
that front matter and directives produce (string and boolean leaves suffice
for every claim; objects are ordered field lists as in JS). -/
inductive JValue where
  | str (s : String)
  | bool (b : Bool)
  | obj (fields : JFields)
/-- Ordered field list of an object value. -/
inductive JFields where
  | nil
  | cons (k : String) (v : JValue) (rest : JFields)
end

/-- First value bound to a key in an ordered field list. -/
def lookupField : JFields → String → Option JValue
  | .nil, _ => none
  | .cons k v rest, key => if k = key then some v else lookupField rest key

/-- JS property assignment on an ordered field list: overwrite in place when
the key exists, append otherwise. -/
def setFieldL : JFields → String → JValue → JFields
  | .nil, key, v => .cons key v .nil
  | .cons k w rest, key, v =>
    if k = key then .cons key v rest else .cons k w (setFieldL rest key v)

/-- Read a property of a value (JS member access; non-objects have none of
the properties the pipeline reads). -/
def getField (j : JValue) (key : String) : Option JValue :=
  match j with
  | .obj fs => lookupField fs key
  | _ => none

/-- Write a property of an object value (identity on non-objects). -/
def setField (j : JValue) (key : String) (v : JValue) : JValue :=
  match j with
  | .obj fs => .obj (setFieldL fs key v)
  | _ => j

/-- JS truthiness of a configuration value: empty strings and false are
falsy, every object is truthy. -/
def jTruthy : JValue → Bool
  | .str s => s ≠ ""
  | .bool b => b
  | .obj _ => true

/-- JS truthiness of an optional property (absent is falsy). -/
def jTruthyO : Option JValue → Bool
  | none => false
  | some v => jTruthy v

/-- Two-level property read: `config.k1.k2`. -/
def getField2 (j : JValue) (k1 k2 : String) : Option JValue :=
  match getField j k1 with
  | some v => getField v k2
  | none => none

/-- Metadata produced by front-matter extraction (§3 of the spec):
an optional title, an optional legacy display mode and an optional
configuration fragment. -/
structure RawMetadata where
  title : Option String
  displayMode : Option String
  config : Option JValue

/-- Result of front-matter extraction: the remaining text and the metadata. -/
structure FrontMatterOut where
  text : String
  metadata : RawMetadata

/-- Split a line list at the first front-matter closing delimiter line. -/
def splitAtDelim : List (List Char) → Option (List (List Char) × List (List Char))
  | [] => none
  | l :: rest =>
    if l = ['-', '-', '-'] then some ([], rest)
    else
      match splitAtDelim rest with
      | some (a, b) => some (l :: a, b)
      | none => none

/-- Fold one front-matter block line into the metadata (`title:` and
`displayMode:` keys; values are trimmed). -/
def parseMetaLine (m : RawMetadata) (l : List Char) : RawMetadata :=
  if startsWithL ['t', 'i', 't', 'l', 'e', ':'] l then
    { m with title := some (String.mk (trimSpaces (l.drop 6))) }
  else if startsWithL ['d', 'i', 's', 'p', 'l', 'a', 'y', 'M', 'o', 'd', 'e', ':'] l then
    { m with displayMode := some (String.mk (trimSpaces (l.drop 12))) }
  else m

/-- Modelled from the spec: `extractFrontMatter` (diagram-api/frontmatter.js,
not under src/). Per §4.2 and the glossary, the front matter is a structured
metadata block at the very start of the text, delimited by `---` lines; with
no block present the metadata is empty and the text is returned unchanged.
The block's recognized keys are `title` and `displayMode`; a nested `config`
mapping is not produced by this model (no claim depends on its syntax). -/
def extractFrontMatter (code : String) : FrontMatterOut :=
  match splitLines code.data with
  | l :: rest =>
    if l = ['-', '-', '-'] then
      match splitAtDelim rest with
      | some (block, after) =>
        { text := String.mk (joinLines after)
          metadata := block.foldl parseMetaLine ⟨none, none, none⟩ }
      | none => { text := code, metadata := ⟨none, none, none⟩ }
    else { text := code, metadata := ⟨none, none, none⟩ }
  | [] => { text := code, metadata := ⟨none, none, none⟩ }

/-- Result of `processFrontmatter`. -/
structure FrontmatterResult where
  title : Option String
  config : JValue
  text : String

/-- The assignment `config.gantt.displayMode = displayMode` of
preprocess.ts line 31, for a `gantt` property that is an object (a primitive
`gantt` would make the JS assignment throw; no modelled metadata produces
one). -/
def setGanttDisplayMode (config : JValue) (dm : String) : JValue :=
  match getField config "gantt" with
  | some (.obj fs) => setField config "gantt" (.obj (setFieldL fs "displayMode" (.str dm)))
  | _ => config

/-- Embedding of `processFrontmatter` (preprocess.ts lines 23-34): extract
front matter, default the config to an empty object, and project a truthy
legacy `displayMode` into `config.gantt.displayMode`, creating the `gantt`
sub-object when it is falsy or absent. -/
def processFrontmatter (code : String) : FrontmatterResult :=
  let r := extractFrontMatter code
  let config := r.metadata.config.getD (JValue.obj .nil)
  match r.metadata.displayMode with
  | none => { title := r.metadata.title, config := config, text := r.text }
  | some dm =>
    if dm = "" then { title := r.metadata.title, config := config, text := r.text }
    else
      let config :=
        if jTruthyO (getField config "gantt") then config
        else setField config "gantt" (JValue.obj .nil)
      { title := r.metadata.title, config := setGanttDisplayMode config dm, text := r.text }

/-- A detected directive carrying its discriminant type (spec §3). -/
structure Directive where
  type : String

/-- Shape of `utils.detectDirective`'s result as consumed by
`processDirectives`: either an array of matches or a single non-array
object. -/
inductive DirectiveResult where
  | arr (xs : List Directive)
  | single (d : Directive)

/-- Result of `processDirectives`. -/
structure DirectivesResult where
  text : String
  directive : JValue

/-- Embedding of `processDirectives` (preprocess.ts lines 36-48),
parameterized over the three utils.js collaborators it imports
(`detectInit`, `detectDirective`, `removeDirectives`): start from the init
directive (an object, defaulting to empty), set its `wrap` property to
whether any array element has type `wrap` when the wrap detection returns an
array, set it to true when a single detected object has type `wrap`, leave
it untouched otherwise, and strip the directive syntax from the text. -/
def processDirectives (detectInit : String → Option JFields)
    (detectDirective : String → String → DirectiveResult)
    (removeDirectives : String → String) (code : String) : DirectivesResult :=
  let initDirective := (detectInit code).getD .nil
  let initDirective :=
    match detectDirective code "wrap" with
    | .arr xs => setFieldL initDirective "wrap" (.bool (xs.any (fun d => d.type == "wrap")))
    | .single d =>
      if d.type == "wrap" then setFieldL initDirective "wrap" (.bool true) else initDirective
  { text := removeDirectives code, directive := JValue.obj initDirective }

/-- Read a directive body up to the closing brace, which must be followed by
the two percent signs of the closing marker; returns the body and the text
after the marker. -/
def dirBody : List Char → Option (List Char × List Char)
  | [] => none
  | '}' :: '%' :: '%' :: rest => some ([], rest)
  | '}' :: _ => none
  | c :: rest =>
    match dirBody rest with
    | some (a, b) => some (c :: a, b)
    | none => none

/-- Discriminant type of a directive body: the trimmed segment before the
first colon. -/
def dirTypeOf (body : List Char) : String :=
  String.mk (trimSpaces (body.takeWhile (fun c => c != ':')))

/-- Fuel-indexed scan collecting all inline directives (spans opened by two
percent signs and an opening brace and closed by the mirrored marker). -/
def scanDirectivesF : Nat → List Char → List Directive
  | 0, _ => []
  | _ + 1, [] => []
  | f + 1, '%' :: '%' :: '{' :: rest =>
    (match dirBody rest with
     | some (body, rest') => ⟨dirTypeOf body⟩ :: scanDirectivesF f rest'
     | none => scanDirectivesF f rest)
  | f + 1, _ :: rest => scanDirectivesF f rest

/-- All inline directives of a text. -/
def scanDirectives (s : String) : List Directive := scanDirectivesF s.data.length s.data

/-- Modelled from the spec: `utils.detectInit` (utils.js, not under src/).
Per §4.3 there is at most one logical init configuration object, possibly
absent; inline directive syntax is the percent-percent-brace marker. The
init arguments' object syntax is not modelled (no claim reads them), so a
present init directive yields an empty mapping. -/
def detectInitM (code : String) : Option JFields :=
  if (scanDirectives code).any (fun d => d.type == "init") then some .nil else none

/-- Modelled from the spec: `utils.detectDirective` (utils.js, not under
src/). Per §4.3 the wrap detection may yield zero, one or many matches of
the requested type; mirroring the collaborator's interface, two or more
matches come back as an array while one match comes back alone and zero
matches come back as a single non-array object whose type is the scanned
text itself. -/
def detectDirectiveM (code : String) (ty : String) : DirectiveResult :=
  match (scanDirectives code).filter (fun d => d.type == ty) with
  | [] => .single ⟨code⟩
  | [d] => .single d
  | ds => .arr ds

/-- Fuel-indexed removal of all inline directive spans. -/
def removeDirF : Nat → List Char → List Char
  | 0, s => s
  | _ + 1, [] => []
  | f + 1, '%' :: '%' :: '{' :: rest =>
    (match dirBody rest with
     | some (_, rest') => removeDirF f rest'
     | none => '%' :: '%' :: '{' :: removeDirF f rest)
  | f + 1, c :: rest => c :: removeDirF f rest

/-- Modelled from the spec: `utils.removeDirectives` (utils.js, not under
src/). Per §4.3(c) it produces the text with all directive syntax removed. -/
def removeDirectivesM (s : String) : String := String.mk (removeDirF s.data.length s.data)

mutual
/-- Deep merge of two values, second argument taking precedence on
conflicts: two objects merge field by field, everything else overwrites. -/
def deepMerge : JValue → JValue → JValue
  | .obj a, .obj b => .obj (mergeFields a b)
  | _, b => b
/-- Fold the fields of the second list into the first, merging recursively
when both sides bind a key to an object. -/
def mergeFields : JFields → JFields → JFields
  | a, .nil => a
  | a, .cons k v rest =>
    mergeFields
      (match lookupField a k, v with
       | some (.obj x), .obj y => setFieldL a k (deepMerge (.obj x) (.obj y))
       | _, _ => setFieldL a k v)
      rest
end

/-- Modelled from the spec: `cleanAndMerge` (utils.js, not under src/).
Per §4.4 the two configuration fragments merge deterministically and deeply,
with a fixed precedence: the second argument (the directive fragment, as the
orchestrator passes it) wins on conflicts. -/
def cleanAndMerge (a b : JValue) : JValue := deepMerge a b

/-- Comment line test: after indentation the line starts with two percent
signs not followed by an opening brace (which would be a directive) and has
at least one further character. -/
def isCommentLine (l : List Char) : Bool :=
  match dropIndent l with
  | '%' :: '%' :: c :: _ => c != '{'
  | _ => false

/-- Modelled from the spec: `cleanupComments` (diagram-api/comments.js, not
under src/). Per §4.5 it removes all comment syntax from the directive-free
text: comment lines are dropped with their line terminator, and leading
whitespace of the result is trimmed. -/
def cleanupComments (s : String) : String :=
  String.mk ((joinLines ((splitLines s.data).filter (fun l => !isCommentLine l))).dropWhile
    Char.isWhitespace)

/-- Result of `preprocessDiagram`. -/
structure PreprocessResult where
  code : String
  title : Option String
  config : JValue

/-- Embedding of `preprocessDiagram` (preprocess.ts lines 56-72): clean the
text, extract the front matter, process the directives on the remaining
text, merge the front-matter configuration with the directive
configuration, and strip comments. -/
def preprocessDiagram (code : String) : PreprocessResult :=
  let cleanedCode := cleanupText code
  let frontMatterResult := processFrontmatter cleanedCode
  let directiveResult :=
    processDirectives detectInitM detectDirectiveM removeDirectivesM frontMatterResult.text
  let config := cleanAndMerge frontMatterResult.config directiveResult.directive
  { code := cleanupComments directiveResult.text
    title := frontMatterResult.title
    config := config }

/-- Modelled from the spec: a registered diagram definition bundle
(diagram-api/types.js, not under src/). Its db, parser, renderer and init
members are external collaborator capabilities; only the bundle's identity
matters for the registry claims, so it is represented by a numeric
identity. -/
structure DiagramDefinition where
  defId : Nat
deriving DecidableEq

/-- Registry state: the process-wide mapping from type tag to registered
definition (spec §3, Registry state), as an ordered association list. -/
abbrev RegState := List (String × DiagramDefinition)

/-- First definition registered under a tag. -/
def lookupDef : List (String × DiagramDefinition) → String → Option DiagramDefinition
  | [], _ => none
  | (k, d) :: rest, ty => if k = ty then some d else lookupDef rest ty

/-- Modelled from the spec: `getDiagram` (diagram-api/diagramAPI.js, not
under src/): the definition registered under a tag, none when the tag is
unregistered (the collaborator throws there, which `Diagram.fromText`
catches). -/
def getDiagram (st : RegState) (ty : String) : Option DiagramDefinition :=
  lookupDef st ty

/-- Modelled from the spec: `registerDiagram` (diagram-api/diagramAPI.js,
not under src/). Per §4.8 registration is idempotent: a tag is registered at
most once, and registering an already-registered id is a no-op (the
conflict report for a differing definition under an existing id is not
modelled; no claim exercises it). -/
def registerDiagram (st : RegState) (id : String) (d : DiagramDefinition) : RegState :=
  match lookupDef st id with
  | some _ => st
  | none => st ++ [(id, d)]

/-- Failure modes of `Diagram.fromText` (spec §7): the dedicated
UnknownDiagramError with its message, a rejection of the asynchronous
loader, a registry lookup failure after a load, and a grammar parse
error. -/
inductive FromTextError where
  | unknownDiagram (msg : String)
  | loaderFailure
  | getDiagramFailure
  | parseError
deriving DecidableEq

/-- A loader table: an optional asynchronous loader per type tag, whose
invocation either rejects or resolves to an id and a definition. -/
abbrev Loaders := String → Option (Except Unit (String × DiagramDefinition))

/-- Embedding of the type-resolution step of `Diagram.fromText` (Diagram.ts
lines 30-50): try `getDiagram`; on failure obtain a loader for the tag
(throwing `UnknownDiagramError` when there is none), invoke it, register
the loaded definition, and read the registry again. Returns the resolution
outcome, the resulting registry state, and how often the loader was
invoked. The registered case reads the registry at line 32 and again at
line 50 on the unchanged state, so it is collapsed into one lookup. -/
def resolveType (loaders : Loaders) (st : RegState) (ty : String) :
    Except FromTextError DiagramDefinition × RegState × Nat :=
  match getDiagram st ty with
  | some d => (Except.ok d, st, 0)
  | none =>
    match loaders ty with
    | none => (Except.error (.unknownDiagram ("Diagram " ++ ty ++ " not found.")), st, 0)
    | some (Except.error _) => (Except.error .loaderFailure, st, 1)
    | some (Except.ok (id, diagram)) =>
      match getDiagram (registerDiagram st id diagram) ty with
      | some d => (Except.ok d, registerDiagram st id diagram, 1)
      | none => (Except.error .getDiagramFailure, registerDiagram st id diagram, 1)

/-- The facade object constructed by `Diagram.fromText` (Diagram.ts lines
64-73): the detected type tag, the encoded text handed to the parser, and
the resolved definition whose db, parser and renderer the facade borrows. -/
structure Diagram where
  type : String
  text : String
  defn : DiagramDefinition
deriving DecidableEq

/-- Embedding of `Diagram.fromText` (Diagram.ts lines 17-65), parameterized
over its collaborators: `detect` is `detectType` applied at the active
configuration, `encode` is `encodeEntities`, `loaders` maps tags to their
dynamic-import loaders, and `parseOk` is the outcome of `parser.parse` on
the string handed to it (the db/init/title side effects act on external
collaborator state and do not influence the claims). The detected type
comes from the raw text; the text is then entity-encoded with one line feed
appended, the type is resolved against the registry, and the encoded text
is parsed and stored in the facade. -/
def fromText (detect : String → String) (encode : String → String) (loaders : Loaders)
    (parseOk : String → Bool) (st : RegState) (text : String) :
    Except FromTextError Diagram × RegState × Nat :=
  match resolveType loaders st (detect text) with
  | (Except.ok d, st', n) =>
    if parseOk (encode text ++ "\n") then
      (Except.ok ⟨detect text, encode text ++ "\n", d⟩, st', n)
    else (Except.error .parseError, st', n)
  | (Except.error e, st', n) => (Except.error e, st', n)

end Mermaid

namespace Mermaid

/-! Helper lemmas about the registry and field lists. -/

theorem lookupDef_append_self (st : RegState) (ty : String) (d : DiagramDefinition)
    (h : lookupDef st ty = none) : lookupDef (st ++ [(ty, d)]) ty = some d := by
  induction st with
  | nil => simp [lookupDef]
  | cons p rest ih =>
    rw [lookupDef] at h
    by_cases hk : p.1 = ty
    · rw [if_pos hk] at h; exact absurd h (by simp)
    · rw [if_neg hk] at h
      rcases p with ⟨k, d'⟩
      simpa [lookupDef, hk] using ih h

theorem lookupField_setFieldL_self : ∀ (fs : JFields) (k : String) (v : JValue),
    lookupField (setFieldL fs k v) k = some v
  | .nil, k, v => by simp [setFieldL, lookupField]
  | .cons k' w rest, k, v => by
    by_cases hk : k' = k
    · simp [setFieldL, hk, lookupField]
    · simp [setFieldL, hk, lookupField, lookupField_setFieldL_self rest k v]

/-! Claim theorems for the registry and facade. -/

/-- C1: for a type tag whose definition is already registered, the
resolution step of `Diagram.fromText` returns that same definition on a
first and on a second call, leaves the registry unchanged both times, and
invokes the loader zero times — hence at most once — across both calls. -/
theorem resolve_registered_twice (L : Loaders) (st : RegState) (ty : String)
    (d : DiagramDefinition) (h : getDiagram st ty = some d) :
    resolveType L st ty = (Except.ok d, st, 0) ∧
    resolveType L (resolveType L st ty).2.1 ty = (Except.ok d, st, 0) ∧
    (resolveType L st ty).2.2 + (resolveType L (resolveType L st ty).2.1 ty).2.2 ≤ 1 := by
  have h1 : resolveType L st ty = (Except.ok d, st, 0) := by
    unfold resolveType
    rw [h]
  refine ⟨h1, ?_, ?_⟩
  · rw [h1]; exact h1
  · rw [h1, h1]
    show 0 + 0 ≤ 1
    decide

/-- Witness for C1 at a concrete one-entry registry. -/
theorem resolve_registered_twice_witness :
    resolveType (fun _ => none) [("flowchart", ⟨7⟩)] "flowchart" =
      (Except.ok ⟨7⟩, [("flowchart", ⟨7⟩)], 0) :=
  (resolve_registered_twice (fun _ => none) [("flowchart", ⟨7⟩)] "flowchart" ⟨7⟩ rfl).1

/-- C3: when the detected type tag has neither a registered definition nor a
loader, `fromText` fails with the dedicated `UnknownDiagramError` (carrying
the not-found message), not with any other error. -/
theorem fromText_unknown_type (detect encode : String → String) (L : Loaders)
    (parseOk : String → Bool) (st : RegState) (text : String)
    (h1 : getDiagram st (detect text) = none) (h2 : L (detect text) = none) :
    fromText detect encode L parseOk st text =
      (Except.error (FromTextError.unknownDiagram ("Diagram " ++ detect text ++ " not found.")),
        st, 0) := by
  unfold fromText resolveType
  rw [h1, h2]

/-- Witness for C3 at an empty registry and a detector tag that does not
exist. -/
theorem fromText_unknown_type_witness :
    fromText (fun _ => "doesnotexist") (fun s => s) (fun _ => none) (fun _ => true) [] "graph" =
      (Except.error (FromTextError.unknownDiagram "Diagram doesnotexist not found."), [], 0) :=
  fromText_unknown_type (fun _ => "doesnotexist") (fun s => s) (fun _ => none) (fun _ => true)
    [] "graph" rfl rfl

/-- C6: when the loader for a not-yet-registered tag rejects, `fromText`
propagates the rejection, the resulting registry state is the unchanged one
in which the tag is still unregistered, and a later call whose loader
resolves can register the tag and succeed. -/
theorem fromText_loader_rejection (detect encode : String → String) (L : Loaders)
    (parseOk : String → Bool) (st : RegState) (text : String)
    (h1 : getDiagram st (detect text) = none)
    (h2 : L (detect text) = some (Except.error ())) :
    fromText detect encode L parseOk st text = (Except.error FromTextError.loaderFailure, st, 1) ∧
    getDiagram (fromText detect encode L parseOk st text).2.1 (detect text) = none ∧
    ∀ (L' : Loaders) (d : DiagramDefinition),
      L' (detect text) = some (Except.ok (detect text, d)) →
      resolveType L' (fromText detect encode L parseOk st text).2.1 (detect text) =
        (Except.ok d, st ++ [(detect text, d)], 1) := by
  have hmain : fromText detect encode L parseOk st text =
      (Except.error FromTextError.loaderFailure, st, 1) := by
    unfold fromText resolveType
    rw [h1, h2]
  refine ⟨hmain, ?_, ?_⟩
  · rw [hmain]; exact h1
  · intro L' d hL'
    rw [hmain]
    show resolveType L' st (detect text) = (Except.ok d, st ++ [(detect text, d)], 1)
    have h1' : lookupDef st (detect text) = none := h1
    have hrd : registerDiagram st (detect text) d = st ++ [(detect text, d)] := by
      unfold registerDiagram
      rw [h1']
    have hreg : getDiagram (st ++ [(detect text, d)]) (detect text) = some d :=
      lookupDef_append_self st (detect text) d h1'
    unfold resolveType
    rw [h1, hL']
    simp only [hrd, hreg]

/-- Witness for C6 at an empty registry with a rejecting loader, retried
with a resolving one. -/
theorem fromText_loader_rejection_witness :
    fromText (fun _ => "pie") (fun s => s) (fun _ => some (Except.error ())) (fun _ => true)
      [] "pie" = (Except.error FromTextError.loaderFailure, [], 1) ∧
    resolveType (fun _ => some (Except.ok ("pie", ⟨3⟩)))
      (fromText (fun _ => "pie") (fun s => s) (fun _ => some (Except.error ())) (fun _ => true)
        [] "pie").2.1 "pie" = (Except.ok ⟨3⟩, [("pie", ⟨3⟩)], 1) := by
  have h := fromText_loader_rejection (fun _ => "pie") (fun s => s)
    (fun _ => some (Except.error ())) (fun _ => true) [] "pie" rfl rfl
  exact ⟨h.1, h.2.2 (fun _ => some (Except.ok ("pie", ⟨3⟩))) ⟨3⟩ rfl⟩

/-- C7: every text accepted by `fromText` yields a facade whose stored text
is the entity-encoded input with exactly one appended line feed, and the
parser was consulted at exactly that string. -/
theorem fromText_text_encoded (detect encode : String → String) (L : Loaders)
    (parseOk : String → Bool) (st : RegState) (text : String) (dg : Diagram)
    (st' : RegState) (n : Nat)
    (h : fromText detect encode L parseOk st text = (Except.ok dg, st', n)) :
    dg.text = encode text ++ "\n" ∧ parseOk (encode text ++ "\n") = true := by
  rcases hr : resolveType L st (detect text) with ⟨r, st2, n2⟩
  rcases r with e | d
  · have hft : fromText detect encode L parseOk st text = (Except.error e, st2, n2) := by
      unfold fromText
      rw [hr]
    rw [hft] at h
    simp at h
  · have hft : fromText detect encode L parseOk st text =
        (if parseOk (encode text ++ "\n") then
          (Except.ok ⟨detect text, encode text ++ "\n", d⟩, st2, n2)
        else (Except.error .parseError, st2, n2)) := by
      unfold fromText
      rw [hr]
    rw [hft] at h
    by_cases hp : parseOk (encode text ++ "\n") = true
    · rw [if_pos hp] at h
      simp only [Prod.mk.injEq, Except.ok.injEq] at h
      obtain ⟨hdg, -, -⟩ := h
      exact ⟨by rw [← hdg], hp⟩
    · rw [if_neg hp] at h
      simp at h

/-- Witness for C7 at a concrete successful parse over a one-entry
registry. -/
theorem fromText_text_encoded_witness :
    (Diagram.mk "flowchart" "graph\n" ⟨7⟩).text = (fun s : String => s) "graph" ++ "\n" ∧
    (fun _ : String => true) ((fun s : String => s) "graph" ++ "\n") = true :=
  fromText_text_encoded (fun _ => "flowchart") (fun s => s) (fun _ => none) (fun _ => true)
    [("flowchart", ⟨7⟩)] "graph" ⟨"flowchart", "graph\n", ⟨7⟩⟩ [("flowchart", ⟨7⟩)] 0 rfl

/-! Claim theorems for the preprocessing pipeline. -/

/-- C2: the round-trip scenario: an input with a front-matter title block
preprocesses to the bare diagram code, the extracted title and an empty
configuration. -/
theorem preprocess_round_trip :
    preprocessDiagram "---\ntitle: My Flow\n---\nflowchart TD\nA-->B" =
      { code := "flowchart TD\nA-->B", title := some "My Flow", config := JValue.obj .nil } :=
  rfl

/-- C4: whenever directive detection reports any directive of type `wrap` —
one match alone or any number of matches inside an array — the directive
object produced by `processDirectives` has its `wrap` property set to
true. -/
theorem processDirectives_wrap_detected (dI : String → Option JFields)
    (dD : String → String → DirectiveResult) (rD : String → String) (code : String)
    (h : match dD code "wrap" with
         | DirectiveResult.arr xs => xs.any (fun d => d.type == "wrap") = true
         | DirectiveResult.single d => d.type = "wrap") :
    getField (processDirectives dI dD rD code).directive "wrap" = some (JValue.bool true) := by
  rcases hd : dD code "wrap" with xs | d
  · rw [hd] at h
    simp only [processDirectives, hd, h]
    exact lookupField_setFieldL_self _ _ _
  · rw [hd] at h
    have hb : (d.type == "wrap") = true := by simp [h]
    simp only [processDirectives, hd, hb, if_true]
    exact lookupField_setFieldL_self _ _ _

/-- Witness for C4: a detection with two wrap matches and a detection with
exactly one both yield a directive whose wrap property is true. -/
theorem processDirectives_wrap_detected_witness :
    getField (processDirectives (fun _ => none)
      (fun _ _ => DirectiveResult.arr [⟨"wrap"⟩, ⟨"wrap"⟩]) (fun s => s) "g").directive "wrap" =
      some (JValue.bool true) ∧
    getField (processDirectives (fun _ => none)
      (fun _ _ => DirectiveResult.single ⟨"wrap"⟩) (fun s => s) "g").directive "wrap" =
      some (JValue.bool true) :=
  ⟨processDirectives_wrap_detected (fun _ => none)
      (fun _ _ => DirectiveResult.arr [⟨"wrap"⟩, ⟨"wrap"⟩]) (fun s => s) "g" (by decide),
    processDirectives_wrap_detected (fun _ => none)
      (fun _ _ => DirectiveResult.single ⟨"wrap"⟩) (fun s => s) "g" rfl⟩

/-- C9: when directive detection returns an array with no wrap-typed
element, `processDirectives` sets the wrap property to false, overwriting
whatever the init directive supplied; and the directive object is left
exactly as the init directive only when detection returns a single
non-array value whose type is not `wrap`. -/
theorem processDirectives_wrap_absent (dI : String → Option JFields)
    (dD : String → String → DirectiveResult) (rD : String → String) (code : String) :
    (∀ xs, dD code "wrap" = DirectiveResult.arr xs → (∀ d ∈ xs, d.type ≠ "wrap") →
      getField (processDirectives dI dD rD code).directive "wrap" = some (JValue.bool false)) ∧
    (∀ d, dD code "wrap" = DirectiveResult.single d → d.type ≠ "wrap" →
      (processDirectives dI dD rD code).directive = JValue.obj ((dI code).getD .nil)) := by
  constructor
  · intro xs hd hall
    have hany : xs.any (fun d => d.type == "wrap") = false := by
      by_contra hc
      rw [Bool.not_eq_false, List.any_eq_true] at hc
      obtain ⟨d, hdx, hdt⟩ := hc
      exact hall d hdx (by simpa using hdt)
    simp only [processDirectives, hd, hany]
    exact lookupField_setFieldL_self _ _ _
  · intro d hd hne
    have hb : (d.type == "wrap") = false := by simp [hne]
    simp only [processDirectives, hd, hb, Bool.false_eq_true, if_false]

/-- Witness for C9: an array of two non-wrap directives forces wrap to
false even over an init directive that supplied wrap, and a single
non-wrap value leaves the init directive untouched. -/
theorem processDirectives_wrap_absent_witness :
    getField (processDirectives (fun _ => some (.cons "wrap" (JValue.bool true) .nil))
      (fun _ _ => DirectiveResult.arr [⟨"foo"⟩, ⟨"bar"⟩]) (fun s => s) "g").directive "wrap" =
      some (JValue.bool false) ∧
    (processDirectives (fun _ => some (.cons "k" (JValue.str "v") .nil))
      (fun _ _ => DirectiveResult.single ⟨"nope"⟩) (fun s => s) "g").directive =
      JValue.obj (.cons "k" (JValue.str "v") .nil) :=
  ⟨(processDirectives_wrap_absent (fun _ => some (.cons "wrap" (JValue.bool true) .nil))
      (fun _ _ => DirectiveResult.arr [⟨"foo"⟩, ⟨"bar"⟩]) (fun s => s) "g").1
      [⟨"foo"⟩, ⟨"bar"⟩] rfl (by decide),
    (processDirectives_wrap_absent (fun _ => some (.cons "k" (JValue.str "v") .nil))
      (fun _ _ => DirectiveResult.single ⟨"nope"⟩) (fun s => s) "g").2
      ⟨"nope"⟩ rfl (by decide)⟩

/-- C8: a truthy front-matter `displayMode` is projected into
`config.gantt.displayMode`, creating the `gantt` sub-object when the
`gantt` property is absent and writing into it when it is an existing
object. -/
theorem processFrontmatter_displayMode (code dm : String) (fs : JFields)
    (h1 : (extractFrontMatter code).metadata.displayMode = some dm)
    (h2 : dm ≠ "")
    (h3 : (extractFrontMatter code).metadata.config.getD (JValue.obj .nil) = JValue.obj fs)
    (h4 : lookupField fs "gantt" = none ∨
      ∃ gs, lookupField fs "gantt" = some (JValue.obj gs)) :
    getField2 (processFrontmatter code).config "gantt" "displayMode" = some (JValue.str dm) := by
  simp only [processFrontmatter, h1, h3]
  rw [if_neg h2]
  rcases h4 with hg | ⟨gs, hg⟩
  · have hT : jTruthyO (getField (JValue.obj fs) "gantt") = false := by
      simp [getField, hg, jTruthyO]
    simp only [hT, Bool.false_eq_true, if_false]
    simp only [getField2, setGanttDisplayMode, setField, getField,
      lookupField_setFieldL_self, lookupField, setFieldL]
    simp
  · have hT : jTruthyO (getField (JValue.obj fs) "gantt") = true := by
      simp [getField, hg, jTruthyO, jTruthy]
    simp only [hT, if_true]
    simp only [getField2, setGanttDisplayMode, setField, getField, hg,
      lookupField_setFieldL_self, lookupField, setFieldL]

/-- Witness for C8 at a concrete front matter containing only a compact
display mode. -/
theorem processFrontmatter_displayMode_witness :
    getField2 (processFrontmatter "---\ndisplayMode: compact\n---\ngantt").config
      "gantt" "displayMode" = some (JValue.str "compact") :=
  processFrontmatter_displayMode "---\ndisplayMode: compact\n---\ngantt" "compact" .nil
    rfl (by decide) rfl (Or.inl rfl)

/-- Identity of the tag scanner on text without an opening angle bracket,
at every fuel. -/
theorem tagScanF_no_lt : ∀ (f : Nat) (s : List Char), '<' ∉ s → tagScanF f s = s
  | 0, _ => fun _ => rfl
  | _ + 1, [] => fun _ => rfl
  | f + 1, c :: rest => fun h => by
    have hc : c ≠ '<' := fun hce => h (hce ▸ List.mem_cons_self c rest)
    simp only [tagScanF]
    rw [if_neg hc, tagScanF_no_lt f rest (fun hm => h (List.mem_cons_of_mem c hm))]

/-- C10: the quote rewrite of `cleanupText` is scoped to attribute patterns
between a tag opener and the first closing angle bracket: a double-quoted
value that contains a closing angle bracket is not rewritten, single-quoted
and unquoted attributes pass through unchanged, double quotes outside any
tag are untouched (in general, text without a tag opener is untouched by
the tag scanner), and an in-scope double-quoted attribute is rewritten. -/
theorem quote_rewrite_scoped :
    cleanupText "<rect fill=\"a>b\">" = "<rect fill=\"a>b\">" ∧
    cleanupText "<a href='x'>" = "<a href='x'>" ∧
    cleanupText "<a href=x y=1>" = "<a href=x y=1>" ∧
    cleanupText "fill=\"red\" stroke=\"blue\"" = "fill=\"red\" stroke=\"blue\"" ∧
    cleanupText "<rect fill=\"red\" stroke=\"blue\">" = "<rect fill='red' stroke='blue'>" ∧
    ∀ s : List Char, '<' ∉ s → tagRep s = s :=
  ⟨rfl, rfl, rfl, rfl, rfl, fun s h => tagScanF_no_lt s.length s h⟩

/-- Witness for C10's universally quantified part at a concrete tag-free
text. -/
theorem quote_rewrite_scoped_witness :
    '<' ∉ ['a', '=', '"', 'b', '"'] ∧
    tagRep ['a', '=', '"', 'b', '"'] = ['a', '=', '"', 'b', '"'] :=
  ⟨by decide, quote_rewrite_scoped.2.2.2.2.2 ['a', '=', '"', 'b', '"'] (by decide)⟩

/-! Lemmas about `splitOnChar`. -/

theorem splitOnChar_some (x : Char) : ∀ (s a b : List Char),
    splitOnChar x s = some (a, b) → s = a ++ x :: b ∧ x ∉ a
  | [], a, b => by simp [splitOnChar]
  | c :: rest, a, b => by
    simp only [splitOnChar]
    by_cases hc : c = x
    · rw [if_pos hc]
      intro he
      simp only [Option.some.injEq, Prod.mk.injEq] at he
      obtain ⟨ha, hb⟩ := he
      subst ha
      subst hb
      subst hc
      simp
    · rw [if_neg hc]
      rcases hsp : splitOnChar x rest with _ | ⟨a', b'⟩
      · intro he
        simp at he
      · intro he
        simp only [Option.some.injEq, Prod.mk.injEq] at he
        obtain ⟨ha, hb⟩ := he
        have ih := splitOnChar_some x rest a' b' hsp
        subst ha
        subst hb
        refine ⟨by simp [ih.1], ?_⟩
        simp only [List.mem_cons, not_or]
        exact ⟨fun he2 => hc he2.symm, ih.2⟩

theorem splitOnChar_none (x : Char) : ∀ (s : List Char), splitOnChar x s = none → x ∉ s
  | [], _ => by simp
  | c :: rest, h => by
    simp only [splitOnChar] at h
    by_cases hc : c = x
    · rw [if_pos hc] at h
      exact absurd h (by simp)
    · rw [if_neg hc] at h
      rcases hsp : splitOnChar x rest with _ | p
      · intro hm
        rcases List.mem_cons.mp hm with he | hm'
        · exact hc he.symm
        · exact splitOnChar_none x rest hsp hm'
      · rw [hsp] at h
        rcases p with ⟨a, b⟩
        simp at h

theorem splitOnChar_append (x : Char) : ∀ (a b : List Char), x ∉ a →
    splitOnChar x (a ++ x :: b) = some (a, b)
  | [], b, _ => by simp [splitOnChar]
  | c :: a', b, h => by
    have hc : c ≠ x := fun he => h (he ▸ List.mem_cons_self c a')
    have ih := splitOnChar_append x a' b (fun hm => h (List.mem_cons_of_mem c hm))
    simp only [List.cons_append, splitOnChar, if_neg hc, List.append_eq, ih]

/-! Fuel irrelevance and unfolding equations for the attribute scanner. -/

theorem attrScanF_nil : ∀ f, attrScanF f [] = []
  | 0 => rfl
  | _ + 1 => rfl

theorem attrScanF_succ_ne (f : Nat) (c : Char) (s : List Char) (hc : c ≠ '=') :
    attrScanF (f + 1) (c :: s) = c :: attrScanF f s := by
  simp only [attrScanF]
  rw [if_neg hc]

theorem attrScanF_succ_single (f : Nat) : attrScanF (f + 1) ['='] = ['='] := rfl

theorem attrScanF_succ_eq_cons (f : Nat) (c2 : Char) (rest2 : List Char) (hc2 : c2 ≠ '"') :
    attrScanF (f + 1) ('=' :: c2 :: rest2) = '=' :: attrScanF f (c2 :: rest2) := by
  simp only [attrScanF, if_true]
  rw [if_neg hc2]

theorem attrScanF_succ_quote_some (f : Nat) (rest2 inner rest' : List Char)
    (hsp : splitOnChar '"' rest2 = some (inner, rest')) :
    attrScanF (f + 1) ('=' :: '"' :: rest2) =
      '=' :: '\'' :: (inner ++ '\'' :: attrScanF f rest') := by
  simp only [attrScanF, hsp, if_true]

theorem attrScanF_succ_quote_none (f : Nat) (rest2 : List Char)
    (hsp : splitOnChar '"' rest2 = none) :
    attrScanF (f + 1) ('=' :: '"' :: rest2) = '=' :: '"' :: attrScanF f rest2 := by
  simp only [attrScanF, hsp, if_true]

theorem attrScanF_fuel : ∀ (f g : Nat) (s : List Char), s.length ≤ f → s.length ≤ g →
    attrScanF f s = attrScanF g s := by
  intro f
  induction f with
  | zero =>
    intro g s hf _
    have hs : s = [] := List.length_eq_zero.mp (Nat.le_zero.mp hf)
    subst hs
    rw [attrScanF_nil, attrScanF_nil]
  | succ f ih =>
    intro g s hf hg
    cases s with
    | nil => rw [attrScanF_nil, attrScanF_nil]
    | cons c rest =>
      cases g with
      | zero => simp at hg
      | succ g' =>
        simp only [List.length_cons] at hf hg
        by_cases hc : c = '='
        · subst hc
          cases rest with
          | nil => rfl
          | cons c2 rest2 =>
            simp only [List.length_cons] at hf hg
            by_cases hc2 : c2 = '"'
            · subst hc2
              rcases hsp : splitOnChar '"' rest2 with _ | ⟨inner, rest'⟩
              · rw [attrScanF_succ_quote_none f rest2 hsp,
                  attrScanF_succ_quote_none g' rest2 hsp, ih g' rest2 (by omega) (by omega)]
              · have hdec := (splitOnChar_some '"' rest2 inner rest' hsp).1
                have hlen : rest'.length < rest2.length := by
                  rw [hdec]
                  simp only [List.length_append, List.length_cons]
                  omega
                rw [attrScanF_succ_quote_some f rest2 inner rest' hsp,
                  attrScanF_succ_quote_some g' rest2 inner rest' hsp,
                  ih g' rest' (by omega) (by omega)]
            · rw [attrScanF_succ_eq_cons f c2 rest2 hc2, attrScanF_succ_eq_cons g' c2 rest2 hc2,
                ih g' (c2 :: rest2) (by simp only [List.length_cons]; omega)
                  (by simp only [List.length_cons]; omega)]
        · rw [attrScanF_succ_ne f c rest hc, attrScanF_succ_ne g' c rest hc,
            ih g' rest (by omega) (by omega)]

theorem attrScanF_eq_attrRep (f : Nat) (s : List Char) (h : s.length ≤ f) :
    attrScanF f s = attrRep s :=
  attrScanF_fuel f s.length s h le_rfl

theorem attrRep_cons_ne (c : Char) (s : List Char) (hc : c ≠ '=') :
    attrRep (c :: s) = c :: attrRep s := by
  simp only [attrRep, List.length_cons]
  rw [attrScanF_succ_ne s.length c s hc]

theorem attrRep_eq_single : attrRep ['='] = ['='] := rfl

theorem attrRep_eq_cons (c2 : Char) (rest2 : List Char) (hc2 : c2 ≠ '"') :
    attrRep ('=' :: c2 :: rest2) = '=' :: attrRep (c2 :: rest2) := by
  simp only [attrRep, List.length_cons]
  rw [attrScanF_succ_eq_cons (rest2.length + 1) c2 rest2 hc2]

theorem attrRep_quote_some (rest2 inner rest' : List Char)
    (hsp : splitOnChar '"' rest2 = some (inner, rest')) :
    attrRep ('=' :: '"' :: rest2) = '=' :: '\'' :: (inner ++ '\'' :: attrRep rest') := by
  have hdec := (splitOnChar_some '"' rest2 inner rest' hsp).1
  have hlen : rest'.length < rest2.length := by
    rw [hdec]
    simp only [List.length_append, List.length_cons]
    omega
  simp only [attrRep, List.length_cons]
  rw [attrScanF_succ_quote_some (rest2.length + 1) rest2 inner rest' hsp,
    attrScanF_fuel (rest2.length + 1) rest'.length rest' (by omega) le_rfl]

theorem attrRep_quote_none (rest2 : List Char) (hsp : splitOnChar '"' rest2 = none) :
    attrRep ('=' :: '"' :: rest2) = '=' :: '"' :: attrRep rest2 := by
  simp only [attrRep, List.length_cons]
  rw [attrScanF_succ_quote_none (rest2.length + 1) rest2 hsp,
    attrScanF_fuel (rest2.length + 1) rest2.length rest2 (by omega) le_rfl]

theorem attrRep_no_quote : ∀ (s : List Char), '"' ∉ s → attrRep s = s
  | [], _ => rfl
  | c :: rest, h => by
    have hrest : '"' ∉ rest := fun hm => h (List.mem_cons_of_mem c hm)
    by_cases hc : c = '='
    · subst hc
      cases rest with
      | nil => exact attrRep_eq_single
      | cons c2 rest2 =>
        have hc2 : c2 ≠ '"' := fun he => hrest (he ▸ List.mem_cons_self c2 rest2)
        rw [attrRep_eq_cons c2 rest2 hc2, attrRep_no_quote (c2 :: rest2) hrest]
    · rw [attrRep_cons_ne c rest hc, attrRep_no_quote rest hrest]

theorem attrRep_skip : ∀ (a t : List Char), '"' ∉ a →
    attrRep (a ++ '\'' :: t) = a ++ '\'' :: attrRep t
  | [], t, _ => by
    simp only [List.nil_append]
    exact attrRep_cons_ne '\'' t (by decide)
  | c :: a', t, h => by
    have ha' : '"' ∉ a' := fun hm => h (List.mem_cons_of_mem c hm)
    by_cases hc : c = '='
    · subst hc
      cases a' with
      | nil =>
        simp only [List.cons_append, List.nil_append]
        rw [attrRep_eq_cons '\'' t (by decide), attrRep_cons_ne '\'' t (by decide)]
      | cons c2 a'' =>
        have hc2 : c2 ≠ '"' := fun he => ha' (he ▸ List.mem_cons_self c2 a'')
        have ihs := attrRep_skip (c2 :: a'') t ha'
        simp only [List.cons_append] at ihs ⊢
        rw [attrRep_eq_cons c2 (a'' ++ '\'' :: t) hc2, ihs]
    · have ihs := attrRep_skip a' t ha'
      simp only [List.cons_append]
      rw [attrRep_cons_ne c (a' ++ '\'' :: t) hc, ihs]

theorem attrRep_not_mem : ∀ (n : Nat) (c : Char) (s : List Char), s.length ≤ n →
    c ≠ '\'' → c ∉ s → c ∉ attrRep s := by
  intro n
  induction n with
  | zero =>
    intro c s hs _ _
    have hnil : s = [] := List.length_eq_zero.mp (Nat.le_zero.mp hs)
    subst hnil
    simp [attrRep, attrScanF]
  | succ n ih =>
    intro c s hs hq h
    cases s with
    | nil => simp [attrRep, attrScanF]
    | cons c1 rest =>
      have hc1 : c ≠ c1 := fun he => h (he ▸ List.mem_cons_self c1 rest)
      have hrest : c ∉ rest := fun hm => h (List.mem_cons_of_mem c1 hm)
      simp only [List.length_cons] at hs
      by_cases h1 : c1 = '='
      · subst h1
        cases rest with
        | nil =>
          rw [attrRep_eq_single]
          simpa using hc1
        | cons c2 rest2 =>
          simp only [List.length_cons] at hs
          have hc2 : c ≠ c2 := fun he => hrest (he ▸ List.mem_cons_self c2 rest2)
          have hm2 : c ∉ rest2 := fun hm => hrest (List.mem_cons_of_mem c2 hm)
          by_cases h2 : c2 = '"'
          · subst h2
            rcases hsp : splitOnChar '"' rest2 with _ | ⟨inner, rest'⟩
            · rw [attrRep_quote_none rest2 hsp]
              simp only [List.mem_cons, not_or]
              exact ⟨hc1, hc2, ih c rest2 (by omega) hq hm2⟩
            · have hdec := (splitOnChar_some '"' rest2 inner rest' hsp).1
              have hlen : rest'.length < rest2.length := by
                rw [hdec]
                simp only [List.length_append, List.length_cons]
                omega
              have hci : c ∉ inner := fun hm => hm2 (by rw [hdec]; exact List.mem_append_left _ hm)
              have hcr : c ∉ rest' := fun hm => hm2 (by
                rw [hdec]
                exact List.mem_append_right _ (List.mem_cons_of_mem _ hm))
              rw [attrRep_quote_some rest2 inner rest' hsp]
              simp only [List.mem_cons, List.mem_append, not_or]
              exact ⟨hc1, hq, hci, hq, ih c rest' (by omega) hq hcr⟩
          · rw [attrRep_eq_cons c2 rest2 h2]
            simp only [List.mem_cons, not_or]
            exact ⟨hc1, ih c (c2 :: rest2) (by simp only [List.length_cons]; omega) hq hrest⟩
      · rw [attrRep_cons_ne c1 rest h1]
        simp only [List.mem_cons, not_or]
        exact ⟨hc1, ih c rest (by omega) hq hrest⟩

theorem attrRep_head (c : Char) (s : List Char) : ∃ t, attrRep (c :: s) = c :: t := by
  by_cases hc : c = '='
  · subst hc
    cases s with
    | nil => exact ⟨[], rfl⟩
    | cons c2 rest2 =>
      by_cases hc2 : c2 = '"'
      · subst hc2
        rcases hsp : splitOnChar '"' rest2 with _ | ⟨inner, rest'⟩
        · exact ⟨_, attrRep_quote_none rest2 hsp⟩
        · exact ⟨_, attrRep_quote_some rest2 inner rest' hsp⟩
      · exact ⟨_, attrRep_eq_cons c2 rest2 hc2⟩
  · exact ⟨_, attrRep_cons_ne c s hc⟩

theorem attrRep_idem_aux : ∀ (n : Nat) (s : List Char), s.length ≤ n →
    attrRep (attrRep s) = attrRep s := by
  intro n
  induction n with
  | zero =>
    intro s hs
    have hnil : s = [] := List.length_eq_zero.mp (Nat.le_zero.mp hs)
    subst hnil
    rfl
  | succ n ih =>
    intro s hs
    cases s with
    | nil => rfl
    | cons c1 rest =>
      simp only [List.length_cons] at hs
      by_cases h1 : c1 = '='
      · subst h1
        cases rest with
        | nil => rfl
        | cons c2 rest2 =>
          simp only [List.length_cons] at hs
          by_cases h2 : c2 = '"'
          · subst h2
            rcases hsp : splitOnChar '"' rest2 with _ | ⟨inner, rest'⟩
            · have hnq : '"' ∉ rest2 := splitOnChar_none '"' rest2 hsp
              have hid : attrRep ('=' :: '"' :: rest2) = '=' :: '"' :: rest2 := by
                rw [attrRep_quote_none rest2 hsp, attrRep_no_quote rest2 hnq]
              rw [hid]
              exact hid
            · have hdec := (splitOnChar_some '"' rest2 inner rest' hsp).1
              have hnqi := (splitOnChar_some '"' rest2 inner rest' hsp).2
              have hlen : rest'.length < rest2.length := by
                rw [hdec]
                simp only [List.length_append, List.length_cons]
                omega
              rw [attrRep_quote_some rest2 inner rest' hsp,
                attrRep_eq_cons '\'' (inner ++ '\'' :: attrRep rest') (by decide),
                attrRep_cons_ne '\'' (inner ++ '\'' :: attrRep rest') (by decide),
                attrRep_skip inner (attrRep rest') hnqi, ih rest' (by omega)]
          · have hidem := ih (c2 :: rest2) (by simp only [List.length_cons]; omega)
            obtain ⟨t, ht⟩ := attrRep_head c2 rest2
            rw [attrRep_eq_cons c2 rest2 h2, ht]
            rw [ht] at hidem
            rw [attrRep_eq_cons c2 t h2, hidem]
      · rw [attrRep_cons_ne c1 rest h1, attrRep_cons_ne c1 (attrRep rest) h1,
          ih rest (by omega)]

theorem attrRep_idem (s : List Char) : attrRep (attrRep s) = attrRep s :=
  attrRep_idem_aux s.length s le_rfl

/-! Lemmas about `takeWord` and the tag scanner. -/

theorem takeWord_append : ∀ s : List Char, (takeWord s).1 ++ (takeWord s).2 = s
  | [] => rfl
  | c :: rest => by
    by_cases hc : isWordChar c = true
    · simp only [takeWord, if_pos hc, List.cons_append, takeWord_append rest]
    · simp only [takeWord, if_neg hc, List.nil_append]

theorem takeWord_word : ∀ (s : List Char) (c : Char), c ∈ (takeWord s).1 → isWordChar c = true
  | [], c => by simp [takeWord]
  | c1 :: rest, c => by
    by_cases hc : isWordChar c1 = true
    · simp only [takeWord, if_pos hc]
      intro hm
      rcases List.mem_cons.mp hm with he | hm'
      · rw [he]
        exact hc
      · exact takeWord_word rest c hm'
    · simp only [takeWord, if_neg hc]
      simp

theorem takeWord_rest_head : ∀ (s : List Char) (c : Char) (t : List Char),
    (takeWord s).2 = c :: t → isWordChar c = false
  | [], c, t => by simp [takeWord]
  | c1 :: rest, c, t => by
    by_cases hc : isWordChar c1 = true
    · simp only [takeWord, if_pos hc]
      exact takeWord_rest_head rest c t
    · simp only [takeWord, if_neg hc]
      intro he
      injection he with he1 he2
      rw [← he1]
      simp only [Bool.not_eq_true] at hc
      exact hc

theorem takeWord_of : ∀ (w r : List Char), (∀ c ∈ w, isWordChar c = true) →
    (∀ c t, r = c :: t → isWordChar c = false) → takeWord (w ++ r) = (w, r)
  | [], r, _, hr => by
    cases r with
    | nil => rfl
    | cons c t =>
      have hcf := hr c t rfl
      simp only [List.nil_append, takeWord, hcf, Bool.false_eq_true, if_false]
  | c1 :: w', r, hw, hr => by
    have hc1 := hw c1 (List.mem_cons_self c1 w')
    have ih := takeWord_of w' r (fun c hm => hw c (List.mem_cons_of_mem c1 hm)) hr
    simp only [List.cons_append, takeWord, hc1, if_true, List.append_eq, ih]

theorem tagScanF_nil : ∀ f, tagScanF f [] = []
  | 0 => rfl
  | _ + 1 => rfl

theorem tagScanF_succ_ne (f : Nat) (c : Char) (s : List Char) (hc : c ≠ '<') :
    tagScanF (f + 1) (c :: s) = c :: tagScanF f s := by
  simp only [tagScanF]
  rw [if_neg hc]

theorem tagScanF_succ_noword (f : Nat) (rest r : List Char) (htw : takeWord rest = ([], r)) :
    tagScanF (f + 1) ('<' :: rest) = '<' :: tagScanF f rest := by
  simp only [tagScanF, htw, if_true]

theorem tagScanF_succ_nogt (f : Nat) (rest : List Char) (t : Char) (tg rest2 : List Char)
    (htw : takeWord rest = (t :: tg, rest2)) (hsp : splitOnChar '>' rest2 = none) :
    tagScanF (f + 1) ('<' :: rest) = '<' :: tagScanF f rest := by
  simp only [tagScanF, htw, hsp, if_true]

theorem tagScanF_succ_match (f : Nat) (rest : List Char) (t : Char)
    (tg rest2 attrs rest3 : List Char) (htw : takeWord rest = (t :: tg, rest2))
    (hsp : splitOnChar '>' rest2 = some (attrs, rest3)) :
    tagScanF (f + 1) ('<' :: rest) =
      '<' :: ((t :: tg) ++ (attrRep attrs ++ '>' :: tagScanF f rest3)) := by
  simp only [tagScanF, htw, hsp, if_true]

theorem takeWord_split_lengths (rest : List Char) (t : Char) (tg rest2 : List Char)
    (htw : takeWord rest = (t :: tg, rest2)) :
    rest.length = tg.length + 1 + rest2.length := by
  have hr := takeWord_append rest
  rw [htw] at hr
  have hr' : (t :: tg) ++ rest2 = rest := hr
  rw [← hr']
  simp only [List.length_append, List.length_cons]

theorem tagScanF_fuel : ∀ (f g : Nat) (s : List Char), s.length ≤ f → s.length ≤ g →
    tagScanF f s = tagScanF g s := by
  intro f
  induction f with
  | zero =>
    intro g s hf _
    have hs : s = [] := List.length_eq_zero.mp (Nat.le_zero.mp hf)
    subst hs
    rw [tagScanF_nil, tagScanF_nil]
  | succ f ih =>
    intro g s hf hg
    cases s with
    | nil => rw [tagScanF_nil, tagScanF_nil]
    | cons c rest =>
      cases g with
      | zero => simp at hg
      | succ g' =>
        simp only [List.length_cons] at hf hg
        by_cases hc : c = '<'
        · subst hc
          rcases htw : takeWord rest with ⟨w, r⟩
          cases w with
          | nil =>
            rw [tagScanF_succ_noword f rest r htw, tagScanF_succ_noword g' rest r htw,
              ih g' rest (by omega) (by omega)]
          | cons t tg =>
            have hlen1 := takeWord_split_lengths rest t tg r htw
            rcases hsp : splitOnChar '>' r with _ | ⟨attrs, rest3⟩
            · rw [tagScanF_succ_nogt f rest t tg r htw hsp,
                tagScanF_succ_nogt g' rest t tg r htw hsp, ih g' rest (by omega) (by omega)]
            · have hdec := (splitOnChar_some '>' r attrs rest3 hsp).1
              have hlen2 : r.length = attrs.length + 1 + rest3.length := by
                rw [hdec]
                simp only [List.length_append, List.length_cons]
                omega
              rw [tagScanF_succ_match f rest t tg r attrs rest3 htw hsp,
                tagScanF_succ_match g' rest t tg r attrs rest3 htw hsp,
                ih g' rest3 (by omega) (by omega)]
        · rw [tagScanF_succ_ne f c rest hc, tagScanF_succ_ne g' c rest hc,
            ih g' rest (by omega) (by omega)]

theorem tagScanF_eq_tagRep (f : Nat) (s : List Char) (h : s.length ≤ f) :
    tagScanF f s = tagRep s :=
  tagScanF_fuel f s.length s h le_rfl

theorem tagRep_cons_ne (c : Char) (s : List Char) (hc : c ≠ '<') :
    tagRep (c :: s) = c :: tagRep s := by
  simp only [tagRep, List.length_cons]
  rw [tagScanF_succ_ne s.length c s hc]

theorem tagRep_noword (rest r : List Char) (htw : takeWord rest = ([], r)) :
    tagRep ('<' :: rest) = '<' :: tagRep rest := by
  simp only [tagRep, List.length_cons]
  rw [tagScanF_succ_noword rest.length rest r htw]

theorem tagRep_nogt (rest : List Char) (t : Char) (tg rest2 : List Char)
    (htw : takeWord rest = (t :: tg, rest2)) (hsp : splitOnChar '>' rest2 = none) :
    tagRep ('<' :: rest) = '<' :: tagRep rest := by
  simp only [tagRep, List.length_cons]
  rw [tagScanF_succ_nogt rest.length rest t tg rest2 htw hsp]

theorem tagRep_match (rest : List Char) (t : Char) (tg rest2 attrs rest3 : List Char)
    (htw : takeWord rest = (t :: tg, rest2))
    (hsp : splitOnChar '>' rest2 = some (attrs, rest3)) :
    tagRep ('<' :: rest) = '<' :: ((t :: tg) ++ (attrRep attrs ++ '>' :: tagRep rest3)) := by
  have hlen1 := takeWord_split_lengths rest t tg rest2 htw
  have hdec := (splitOnChar_some '>' rest2 attrs rest3 hsp).1
  have hlen2 : rest2.length = attrs.length + 1 + rest3.length := by
    rw [hdec]
    simp only [List.length_append, List.length_cons]
    omega
  simp only [tagRep, List.length_cons]
  rw [tagScanF_succ_match rest.length rest t tg rest2 attrs rest3 htw hsp,
    tagScanF_fuel rest.length rest3.length rest3 (by omega) le_rfl]

theorem tagRep_head (c : Char) (s : List Char) : ∃ t, tagRep (c :: s) = c :: t := by
  by_cases hc : c = '<'
  · subst hc
    rcases htw : takeWord s with ⟨w, r⟩
    cases w with
    | nil => exact ⟨_, tagRep_noword s r htw⟩
    | cons t tg =>
      rcases hsp : splitOnChar '>' r with _ | ⟨attrs, rest3⟩
      · exact ⟨_, tagRep_nogt s t tg r htw hsp⟩
      · exact ⟨_, tagRep_match s t tg r attrs rest3 htw hsp⟩
  · exact ⟨_, tagRep_cons_ne c s hc⟩

theorem tagRep_no_gt : ∀ s : List Char, '>' ∉ s → tagRep s = s
  | [], _ => rfl
  | c :: rest, h => by
    have hrest : '>' ∉ rest := fun hm => h (List.mem_cons_of_mem c hm)
    by_cases hc : c = '<'
    · subst hc
      rcases htw : takeWord rest with ⟨w, r⟩
      cases w with
      | nil => rw [tagRep_noword rest r htw, tagRep_no_gt rest hrest]
      | cons t tg =>
        rcases hsp : splitOnChar '>' r with _ | ⟨attrs, rest3⟩
        · rw [tagRep_nogt rest t tg r htw hsp, tagRep_no_gt rest hrest]
        · exfalso
          have hr := takeWord_append rest
          rw [htw] at hr
          have hr' : (t :: tg) ++ r = rest := hr
          have hdec := (splitOnChar_some '>' r attrs rest3 hsp).1
          apply hrest
          rw [← hr', hdec]
          exact List.mem_append_right _
            (List.mem_append_right _ (List.mem_cons_self '>' rest3))
    · rw [tagRep_cons_ne c rest hc, tagRep_no_gt rest hrest]

theorem tagRep_not_mem : ∀ (n : Nat) (c : Char) (s : List Char), s.length ≤ n →
    c ≠ '\'' → c ∉ s → c ∉ tagRep s := by
  intro n
  induction n with
  | zero =>
    intro c s hs _ _
    have hnil : s = [] := List.length_eq_zero.mp (Nat.le_zero.mp hs)
    subst hnil
    simp [tagRep, tagScanF]
  | succ n ih =>
    intro c s hs hq h
    cases s with
    | nil => simp [tagRep, tagScanF]
    | cons c1 rest =>
      have hc1 : c ≠ c1 := fun he => h (he ▸ List.mem_cons_self c1 rest)
      have hrest : c ∉ rest := fun hm => h (List.mem_cons_of_mem c1 hm)
      simp only [List.length_cons] at hs
      by_cases h1 : c1 = '<'
      · subst h1
        rcases htw : takeWord rest with ⟨w, r⟩
        cases w with
        | nil =>
          rw [tagRep_noword rest r htw]
          intro hm
          rcases List.mem_cons.mp hm with he | hm'
          · exact hc1 he
          · exact ih c rest (by omega) hq hrest hm'
        | cons t tg =>
          have hlen1 := takeWord_split_lengths rest t tg r htw
          rcases hsp : splitOnChar '>' r with _ | ⟨attrs, rest3⟩
          · rw [tagRep_nogt rest t tg r htw hsp]
            intro hm
            rcases List.mem_cons.mp hm with he | hm'
            · exact hc1 he
            · exact ih c rest (by omega) hq hrest hm'
          · have hdec := (splitOnChar_some '>' r attrs rest3 hsp).1
            have hlen2 : rest3.length < r.length := by
              rw [hdec]
              simp only [List.length_append, List.length_cons]
              omega
            have hr := takeWord_append rest
            rw [htw] at hr
            have hr' : (t :: tg) ++ r = rest := hr
            have hmt : c ∉ t :: tg := fun hm =>
              hrest (by rw [← hr']; exact List.mem_append_left _ hm)
            have hma : c ∉ attrs := fun hm =>
              hrest (by
                rw [← hr', hdec]
                exact List.mem_append_right _ (List.mem_append_left _ hm))
            have hm3 : c ∉ rest3 := fun hm =>
              hrest (by
                rw [← hr', hdec]
                exact List.mem_append_right _
                  (List.mem_append_right _ (List.mem_cons_of_mem _ hm)))
            rw [tagRep_match rest t tg r attrs rest3 htw hsp]
            intro hm
            rcases List.mem_cons.mp hm with he | hm1
            · exact hc1 he
            rcases List.mem_append.mp hm1 with hm2 | hm3'
            · exact hmt hm2
            rcases List.mem_append.mp hm3' with hm4 | hm5
            · exact attrRep_not_mem attrs.length c attrs le_rfl hq hma hm4
            rcases List.mem_cons.mp hm5 with he | hm6
            · refine hrest ?_
              rw [← hr', hdec, he]
              exact List.mem_append_right _
                (List.mem_append_right _ (List.mem_cons_self '>' rest3))
            · exact ih c rest3 (by omega) hq hm3 hm6
      · rw [tagRep_cons_ne c1 rest h1]
        intro hm
        rcases List.mem_cons.mp hm with he | hm'
        · exact hc1 he
        · exact ih c rest (by omega) hq hrest hm'

theorem tagRep_idem_aux : ∀ (n : Nat) (s : List Char), s.length ≤ n →
    tagRep (tagRep s) = tagRep s := by
  intro n
  induction n with
  | zero =>
    intro s hs
    have hnil : s = [] := List.length_eq_zero.mp (Nat.le_zero.mp hs)
    subst hnil
    rfl
  | succ n ih =>
    intro s hs
    cases s with
    | nil => rfl
    | cons c1 rest =>
      simp only [List.length_cons] at hs
      by_cases h1 : c1 = '<'
      · subst h1
        rcases htw : takeWord rest with ⟨w, r⟩
        cases w with
        | nil =>
          rw [tagRep_noword rest r htw]
          cases rest with
          | nil => rfl
          | cons c2 r2 =>
            have hc2 : isWordChar c2 = false := by
              by_contra hcc
              rw [Bool.not_eq_false] at hcc
              simp only [takeWord, hcc, if_true] at htw
              simp at htw
            obtain ⟨t2, ht2⟩ := tagRep_head c2 r2
            rw [ht2]
            have htw2 : takeWord (c2 :: t2) = ([], c2 :: t2) := by
              simp only [takeWord, hc2, Bool.false_eq_true, if_false]
            rw [tagRep_noword (c2 :: t2) (c2 :: t2) htw2]
            have hidem := ih (c2 :: r2) (by simp only [List.length_cons] at hs ⊢; omega)
            rw [ht2] at hidem
            rw [hidem]
        | cons t tg =>
          have hlen1 := takeWord_split_lengths rest t tg r htw
          rcases hsp : splitOnChar '>' r with _ | ⟨attrs, rest3⟩
          · have hngt_r : '>' ∉ r := splitOnChar_none '>' r hsp
            have hr := takeWord_append rest
            rw [htw] at hr
            have hr' : (t :: tg) ++ r = rest := hr
            have hngt : '>' ∉ rest := by
              rw [← hr']
              intro hm
              rcases List.mem_append.mp hm with hm1 | hm2
              · have hw := takeWord_word rest '>' (by rw [htw]; exact hm1)
                exact absurd hw (by decide)
              · exact hngt_r hm2
            rw [tagRep_nogt rest t tg r htw hsp, tagRep_no_gt rest hngt,
              tagRep_nogt rest t tg r htw hsp, tagRep_no_gt rest hngt]
          · have hdec := (splitOnChar_some '>' r attrs rest3 hsp).1
            have hnga := (splitOnChar_some '>' r attrs rest3 hsp).2
            have hlen2 : rest3.length < r.length := by
              rw [hdec]
              simp only [List.length_append, List.length_cons]
              omega
            rw [tagRep_match rest t tg r attrs rest3 htw hsp]
            have hword : ∀ c ∈ t :: tg, isWordChar c = true := fun c hm =>
              takeWord_word rest c (by rw [htw]; exact hm)
            have hhead : ∀ c t2, (attrRep attrs ++ '>' :: tagRep rest3) = c :: t2 →
                isWordChar c = false := by
              intro c t2 he
              cases attrs with
              | nil =>
                simp only [List.nil_append] at he
                injection he with he1 he2
                rw [← he1]
                decide
              | cons a as =>
                obtain ⟨ta, hta⟩ := attrRep_head a as
                rw [hta, List.cons_append] at he
                injection he with he1 he2
                rw [← he1]
                exact takeWord_rest_head rest a (as ++ '>' :: rest3) (by rw [htw]; exact hdec)
            have htw2 : takeWord ((t :: tg) ++ (attrRep attrs ++ '>' :: tagRep rest3)) =
                (t :: tg, attrRep attrs ++ '>' :: tagRep rest3) :=
              takeWord_of (t :: tg) _ hword hhead
            have hnga2 : '>' ∉ attrRep attrs :=
              attrRep_not_mem attrs.length '>' attrs le_rfl (by decide) hnga
            have hsp2 : splitOnChar '>' (attrRep attrs ++ '>' :: tagRep rest3) =
                some (attrRep attrs, tagRep rest3) :=
              splitOnChar_append '>' (attrRep attrs) (tagRep rest3) hnga2
            rw [tagRep_match _ t tg _ (attrRep attrs) (tagRep rest3) htw2 hsp2]
            rw [attrRep_idem attrs, ih rest3 (by omega)]
      · rw [tagRep_cons_ne c1 rest h1, tagRep_cons_ne c1 (tagRep rest) h1,
          ih rest (by omega)]

theorem tagRep_idem (s : List Char) : tagRep (tagRep s) = tagRep s :=
  tagRep_idem_aux s.length s le_rfl

/-! Lemmas about the carriage-return scanner. -/

theorem crScan_no_cr : ∀ s : List Char, '\r' ∉ crScan s
  | [] => by simp [crScan]
  | [c] => by
    simp only [crScan]
    by_cases hc : c = '\r'
    · rw [if_pos hc]
      decide
    · rw [if_neg hc]
      simp only [List.mem_singleton]
      exact fun he => hc he.symm
  | c :: c2 :: rest => by
    simp only [crScan]
    by_cases hc : c = '\r'
    · rw [if_pos hc]
      by_cases hc2 : c2 = '\n'
      · rw [if_pos hc2]
        intro hm
        rcases List.mem_cons.mp hm with he | hm'
        · exact absurd he (by decide)
        · exact crScan_no_cr rest hm'
      · rw [if_neg hc2]
        intro hm
        rcases List.mem_cons.mp hm with he | hm'
        · exact absurd he (by decide)
        · exact crScan_no_cr (c2 :: rest) hm'
    · rw [if_neg hc]
      intro hm
      rcases List.mem_cons.mp hm with he | hm'
      · exact hc he.symm
      · exact crScan_no_cr (c2 :: rest) hm'

theorem crScan_id : ∀ s : List Char, '\r' ∉ s → crScan s = s
  | [], _ => rfl
  | [c], h => by
    have hc : c ≠ '\r' := fun he => h (by simp [he])
    simp only [crScan, if_neg hc]
  | c :: c2 :: rest, h => by
    have hc : c ≠ '\r' := fun he => h (by simp [he])
    have hrest : '\r' ∉ c2 :: rest := fun hm => h (List.mem_cons_of_mem c hm)
    simp only [crScan, if_neg hc]
    rw [crScan_id (c2 :: rest) hrest]

/-- C5: the text-normalization step `cleanupText` is idempotent: applying it
twice yields the same string as applying it once, for every input. -/
theorem cleanupText_idempotent (x : String) :
    cleanupText (cleanupText x) = cleanupText x := by
  show String.mk (tagRep (crScan (tagRep (crScan x.data)))) = String.mk (tagRep (crScan x.data))
  have hnocr : '\r' ∉ tagRep (crScan x.data) :=
    tagRep_not_mem (crScan x.data).length '\r' (crScan x.data) le_rfl (by decide)
      (crScan_no_cr x.data)
  rw [crScan_id _ hnocr, tagRep_idem]

end Mermaid
